import Mathlib

/-!
Verification of the bank-marketing dashboard core (src/app.py): table model,
filter pipeline, summary metric, CSV export and re-load. Cell values are
modelled as strings or exact rationals (pandas float64 idealised as ℚ);
pandas NaN appears only as the result of aggregating an empty column.
-/

/-- A cell value: a string (pandas object dtype) or a number
(pandas int64/float64, idealised as an exact rational). -/
inductive Value where
  | str (s : String)
  | num (q : ℚ)
deriving DecidableEq, Repr

/-- A data frame: ordered column names and row-major cells,
mirroring the pandas `DataFrame` the app manipulates. -/
structure Table where
  header : List String
  rows : List (List Value)
deriving DecidableEq, Repr

/-- Well-formedness: every row has one cell per column (pandas invariant). -/
def Table.WF (t : Table) : Prop :=
  ∀ r ∈ t.rows, r.length = t.header.length

instance (t : Table) : Decidable t.WF := by
  unfold Table.WF; infer_instance

/-- Index of the first column with the given name (`df[col]` lookup;
the app assumes unique column names). -/
def headerIndex (header : List String) (c : String) : Option Nat :=
  match header with
  | [] => none
  | h :: rest => if h = c then some 0 else (headerIndex rest c).map (· + 1)

def Table.colIndex (t : Table) (c : String) : Option Nat :=
  headerIndex t.header c

/-- The cells of column `c`, in row order (`df[col]` as a series). -/
def Table.column (t : Table) (c : String) : List Value :=
  match t.colIndex c with
  | none => []
  | some i => t.rows.filterMap (fun r => r.get? i)

/-- Numeric contents of a list of cells. -/
def numsOf (vs : List Value) : List ℚ :=
  vs.filterMap (fun v => match v with | .num q => some q | .str _ => none)

/-- Whether a cell is numeric. -/
def Value.isNum : Value → Bool
  | .num _ => true
  | .str _ => false

/-- Column `c` exists and every cell in it is numeric: the model of
`c` being listed by `df.select_dtypes(include=['number'])`. -/
def Table.isNumericCol (t : Table) (c : String) : Bool :=
  (t.colIndex c).isSome && (t.column c).all Value.isNum

/-- Column `c` exists and every cell in it is a string: the model of
`c` being listed by `df.select_dtypes(include=['object','category'])`. -/
def Table.isStrCol (t : Table) (c : String) : Bool :=
  (t.colIndex c).isSome && (t.column c).all (fun v => !v.isNum)

/-- The first categorical column, as chosen by the sidebar selectbox default
(`categorical_cols[0]`, src/app.py lines 108-110). -/
def Table.firstCatCol (t : Table) : Option String :=
  t.header.find? (fun c => t.isStrCol c)

/-- Distinct values of a column (`df[col].unique()`, src/app.py line 111);
only set membership of the result matters downstream. -/
def Table.uniqueVals (t : Table) (c : String) : List Value :=
  (t.column c).dedup

/-- Categorical filter `df[df[col].isin(allowed)]` (src/app.py line 113).
`none` models the `KeyError` raised when the column is absent. -/
def catFilter (t : Table) (c : String) (allowed : List Value) : Option Table :=
  match t.colIndex c with
  | none => none
  | some i =>
      some { header := t.header,
             rows := t.rows.filter (fun r =>
               match r.get? i with
               | some v => allowed.contains v
               | none => false) }

/-- Range filter `df[(df[col] >= lo) & (df[col] <= hi)]`
(src/app.py line 122). `none` models the `KeyError` on a missing column;
a non-numeric cell compares false (the app only ranges over numeric columns). -/
def rangeFilter (t : Table) (c : String) (lo hi : ℚ) : Option Table :=
  match t.colIndex c with
  | none => none
  | some i =>
      some { header := t.header,
             rows := t.rows.filter (fun r =>
               match r.get? i with
               | some (.num q) => decide (lo ≤ q) && decide (q ≤ hi)
               | _ => false) }

/-- Python `int()` on a rational: truncation toward zero
(`int(df['age'].min())`, src/app.py lines 119-121). -/
def pyInt (q : ℚ) : ℤ :=
  q.num.tdiv (q.den : ℤ)

/-- Minimum of a list of rationals, `none` when empty
(`df['age'].min()` is NaN on an empty series). -/
def ratMin : List ℚ → Option ℚ
  | [] => none
  | q :: rest => some (rest.foldl min q)

/-- Maximum of a list of rationals, `none` when empty. -/
def ratMax : List ℚ → Option ℚ
  | [] => none
  | q :: rest => some (rest.foldl max q)

/-- The age slider's bounds: `int()` of the min and max of the `age` column
of the current (already categorically filtered) frame (src/app.py 118-121).
`none` models the `ValueError` raised by `int(nan)` when the column is empty. -/
def sliderBounds (t : Table) : Option (ℤ × ℤ) :=
  match ratMin (numsOf (t.column "age")), ratMax (numsOf (t.column "age")) with
  | some lo, some hi => some (pyInt lo, pyInt hi)
  | _, _ => none

/-- The age-filter phase of the sidebar (src/app.py lines 116-122) with the
slider left at its default (widest) range: if `age` is a numeric column of the
current frame, filter by the slider's own bounds, else leave the frame alone.
`none` models the `ValueError` from `int(nan)` on an empty column. -/
def ageFilterDefault (t1 : Table) : Option Table :=
  if t1.isNumericCol "age" then
    match sliderBounds t1 with
    | none => none
    | some (lo, hi) => rangeFilter t1 "age" (lo : ℚ) (hi : ℚ)
  else some t1

/-- The sidebar filter pipeline (src/app.py lines 108-122) for a chosen
categorical column `c` and selected values `allowed`, with the age slider at
its default range. -/
def pipelineWith (t : Table) (c : String) (allowed : List Value) : Option Table :=
  match catFilter t c allowed with
  | none => none
  | some t1 => ageFilterDefault t1

/-- The whole sidebar pipeline with every control at its default: the first
categorical column (if any) with all its distinct values selected, and the
age slider untouched. -/
def defaultPipeline (t : Table) : Option Table :=
  match t.firstCatCol with
  | some c => pipelineWith t c (t.uniqueVals c)
  | none => ageFilterDefault t

/-- A filter specification: an optional categorical constraint and an
optional numeric range constraint (spec section 3, FilterSpec). -/
structure FilterSpec where
  cat : Option (String × List Value)
  range : Option (String × ℚ × ℚ)
deriving DecidableEq, Repr

/-- Apply the categorical constraint of a spec, if any (src/app.py line 113). -/
def applyCat (t : Table) : Option (String × List Value) → Option Table
  | none => some t
  | some (c, allowed) => catFilter t c allowed

/-- Apply the numeric range constraint of a spec, if any (src/app.py line 122). -/
def applyRange (t : Table) : Option (String × ℚ × ℚ) → Option Table
  | none => some t
  | some (c, lo, hi) => rangeFilter t c lo hi

/-- `apply(table, specs)`: the categorical filter followed by the range
filter, exactly the two reassignments of `df` in src/app.py lines 113 and 122. -/
def applySpec (t : Table) (S : FilterSpec) : Option Table :=
  match applyCat t S.cat with
  | none => none
  | some t1 => applyRange t1 S.range

/-- The displayed average-age metric: a number, pandas NaN (mean of an empty
series), or the string shown when the column is absent. -/
inductive AvgMetric where
  | NA
  | nan
  | val (q : ℚ)
deriving DecidableEq, Repr

/-- `df['age'].mean() if 'age' in df.columns else 'N/A'` (src/app.py line 142):
the mean of the numeric cells of `age`, NaN when there are none. -/
def Table.avgAge (t : Table) : AvgMetric :=
  if (t.colIndex "age").isSome then
    let qs := numsOf (t.column "age")
    if qs.isEmpty then .nan else .val (qs.sum / (qs.length : ℚ))
  else .NA

/-- The three key metrics of the dashboard (src/app.py lines 129-144). -/
structure Metrics where
  rowCount : Nat
  colCount : Nat
  avgAge : AvgMetric
deriving DecidableEq, Repr

/-- `len(df)`, `len(df.columns)` and the average-age metric. -/
def summarize (t : Table) : Metrics :=
  { rowCount := t.rows.length, colCount := t.header.length, avgAge := t.avgAge }

/-- Least `k` with `den ∣ 10^k`, when one exists: the number of decimal
digits needed to print a terminating rational exactly. -/
def decExp (den : Nat) : Option Nat :=
  (List.range (den + 1)).find? (fun k => 10 ^ k % den == 0)

/-- Decimal rendering of a rational, as pandas writes the cell to CSV:
integers without a decimal point, terminating fractions with the fewest
digits. (Non-terminating rationals cannot arise from a float64 column;
they get a fallback rendering outside the faithful domain.) -/
def renderRat (q : ℚ) : String :=
  if q.den = 1 then toString q.num
  else
    match decExp q.den with
    | some k =>
        let n := (q.num * (10 ^ k : ℤ) / (q.den : ℤ)).natAbs
        let fps := toString (n % 10 ^ k)
        let fpad := String.mk (List.replicate (k - fps.length) '0') ++ fps
        (if q.num < 0 then "-" else "") ++ toString (n / 10 ^ k) ++ "." ++ fpad
    | none => toString q.num ++ "/" ++ toString q.den

/-- The string a cell contributes to the CSV file, before quoting. -/
def renderValue : Value → String
  | .str s => s
  | .num q => renderRat q

/-- csv QUOTE_MINIMAL: a field is quoted iff it contains the delimiter,
the quote character, or a line break. -/
def needsQuote (s : String) : Bool :=
  s.data.any (fun ch => ch == ',' || ch == '\"' || ch == '\n' || ch == '\r')

/-- Double every quote character (csv writer escaping inside a quoted field). -/
def escapeQuotes (s : String) : String :=
  String.mk (s.data.foldr
    (fun ch acc => if ch = '\"' then '\"' :: '\"' :: acc else ch :: acc) [])

/-- One field as written by `df.to_csv`: quoted only when needed. -/
def renderField (s : String) : String :=
  if needsQuote s then "\"" ++ escapeQuotes s ++ "\"" else s

/-- Fields joined by the comma delimiter. -/
def joinComma : List String → String
  | [] => ""
  | [s] => s
  | s :: rest => s ++ "," ++ joinComma rest

/-- One CSV line: fields joined by commas. -/
def csvLine (cells : List String) : String :=
  joinComma (cells.map renderField)

/-- Lines each terminated by a newline, as the csv writer emits them. -/
def unlines : List String → String
  | [] => ""
  | l :: rest => l ++ "\n" ++ unlines rest

/-- `df.to_csv(index=False)` (src/app.py line 192): the header line then one
line per row, each terminated by a newline, rows in the frame's order. -/
def Table.toCsv (t : Table) : String :=
  unlines (csvLine t.header :: t.rows.map (fun r => csvLine (r.map renderValue)))

/-- A cell string that needs no quoting and survives the CSV trip verbatim:
nonempty and free of the delimiter, quote and line-break characters. -/
def plainCell (s : String) : Prop :=
  s ≠ "" ∧ ∀ ch ∈ s.data, ch ≠ ',' ∧ ch ≠ '\"' ∧ ch ≠ '\n' ∧ ch ≠ '\r'

instance (s : String) : Decidable (plainCell s) := by
  unfold plainCell; infer_instance

/-- The arguments handed to the download widget (src/app.py lines 193-198). -/
structure Download where
  data : String
  fileName : String
  mime : String
deriving DecidableEq, Repr

/-- `st.download_button(..., data=csv, file_name="filtered_bank_data.csv",
mime="text/csv")` over the current filtered frame. -/
def downloadButton (t : Table) : Download :=
  { data := t.toCsv, fileName := "filtered_bank_data.csv", mime := "text/csv" }

/-- Split a character list on a separator; `[[]]` on empty input. -/
def splitOnChar (sep : Char) : List Char → List (List Char)
  | [] => [[]]
  | ch :: rest =>
      match splitOnChar sep rest with
      | [] => [[ch]]
      | f :: fs => if ch = sep then [] :: f :: fs else (ch :: f) :: fs

/-- Prepend a character to the first field of a field list. -/
def consHead (ch : Char) : List (List Char) → List (List Char)
  | [] => [[ch]]
  | f :: fs => (ch :: f) :: fs

mutual
/-- Split one CSV line into fields, honouring quoting: the model of the
csv reader pandas uses. Outside quotes a comma ends the field and a quote
opens a quoted section. -/
def parseFieldsList : List Char → List (List Char)
  | [] => [[]]
  | '\"' :: rest => parseQuoted rest
  | ',' :: rest => [] :: parseFieldsList rest
  | ch :: rest => consHead ch (parseFieldsList rest)

/-- Inside a quoted section: a doubled quote is a literal quote, a single
quote closes the section, anything else (commas included) is field text. -/
def parseQuoted : List Char → List (List Char)
  | [] => [[]]
  | '\"' :: '\"' :: rest => consHead '\"' (parseQuoted rest)
  | '\"' :: rest => parseFieldsList rest
  | ch :: rest => consHead ch (parseQuoted rest)
end

/-- Digits-only numeral parse. -/
def parseNatDigits (s : String) : Option Nat :=
  if s.length > 0 && s.data.all Char.isDigit then
    some (s.data.foldl (fun n ch => n * 10 + (ch.toNat - Char.toNat '0')) 0)
  else none

/-- The unsigned part of a numeric cell: a digit string (an integer) or
`digits.digits` (a decimal, whose value is the scaled integer over the
matching power of ten). -/
def parseRatCore (cs : List Char) : Option ℚ :=
  match (splitOnChar '.' cs).map (fun ds => String.mk ds) with
  | [a] => (parseNatDigits a).map (fun n => (n : ℚ))
  | [a, b] =>
      match parseNatDigits a, parseNatDigits b with
      | some ia, some fb =>
          some (mkRat ((ia * 10 ^ b.length + fb : ℕ) : ℤ) (10 ^ b.length))
      | _, _ => none
  | _ => none

/-- A cell parses as a number when it is an optionally signed integer or
plain decimal literal (the numeric forms the encoder emits; pandas also
accepts exponent forms, which the model leaves as strings). -/
def parseRatCSV (s : String) : Option ℚ :=
  match s.data with
  | '-' :: rest => (parseRatCore rest).map (fun q => -q)
  | '+' :: rest => parseRatCore rest
  | _ => parseRatCore s.data

/-- pandas column type inference: a column whose cells all parse numerically
becomes a numeric column, otherwise it stays a string (object) column.
(The int64/float64 distinction collapses in the ℚ value model.) -/
def inferColumn (cells : List String) : List Value :=
  if cells.all (fun s => (parseRatCSV s).isSome) then
    cells.map (fun s =>
      match parseRatCSV s with
      | some q => Value.num q
      | none => Value.str s)
  else cells.map Value.str

/-- Build a Table from a header and a rectangular grid of cell strings,
inferring each column's type (spec section 9: inference once at load time). -/
def mkTable (header : List String) (grid : List (List String)) : Table :=
  { header := header, rows := (grid.transpose.map inferColumn).transpose }

/-- Parse a list of non-blank lines: the first is the header, every data row
must have exactly one field per column (`none` models `ParserError`/malformed
structure; pandas pads short rows with NaN, which the NaN-free cell model
also rejects), `none` when there are no lines at all (`EmptyDataError`). -/
def loadLines : List (List Char) → Option Table
  | [] => none
  | hl :: dls =>
      let header := (parseFieldsList hl).map (fun cs => String.mk cs)
      let grid := dls.map (fun l => (parseFieldsList l).map (fun cs => String.mk cs))
      if grid.all (fun r => r.length == header.length) then
        some (mkTable header grid)
      else none

/-- `pd.read_csv` on the uploaded text: split into lines, skip blank lines,
then parse. -/
def loadCSV (s : String) : Option Table :=
  loadLines ((splitOnChar '\n' s.data).filter (fun l => !l.isEmpty))

/-- What `load_data` (src/app.py lines 65-74) hands back: the parsed table
when reading succeeds, and whether `st.error` was shown (the parse-failure
report inside the loader). -/
structure LoadOutcome where
  table : Option Table
  errorReported : Bool
deriving DecidableEq, Repr

/-- `load_data`: `None` input gives no table and no report; a malformed
stream gives no table and an error report; otherwise the parsed table. -/
def load_data (content : Option String) : LoadOutcome :=
  match content with
  | none => { table := none, errorReported := false }
  | some s =>
      match loadCSV s with
      | none => { table := none, errorReported := true }
      | some t => { table := some t, errorReported := false }

/-- How `main` proceeds after loading (src/app.py lines 92-100). -/
inductive MainOutcome where
  | promptUpload
  | emptyWarning
  | proceed (t : Table)
deriving DecidableEq, Repr

/-- The load-and-dispatch prefix of `main`: prompt when no file, the
line-99 warning when the loader yielded no table or an empty one, else
continue with the table. -/
def mainDispatch (content : Option String) : MainOutcome :=
  match content with
  | none => .promptUpload
  | some s =>
      match (load_data (some s)).table with
      | none => .emptyWarning
      | some t => if t.rows.isEmpty then .emptyWarning else .proceed t

/-- Re-encoding then re-inferring every cell: the canonical form a table
takes after one trip through `to_csv` and `read_csv`. -/
def canonTable (t : Table) : Table :=
  mkTable t.header (t.rows.map (fun r => r.map renderValue))

/-- The spec's example table: `age:[25,40,60]`, `job:["admin","admin","blue-collar"]`. -/
def T5 : Table :=
  { header := ["age", "job"],
    rows := [[.num 25, .str "admin"], [.num 40, .str "admin"], [.num 60, .str "blue-collar"]] }

/-- The rational 25.5 (written as a normal form so that kernel evaluation
never has to normalise a quotient). -/
def q25p5 : ℚ := ⟨51, 2, by norm_num, by norm_num⟩

/-- A one-row table whose `age` value 25.5 is not an integer. -/
def Tq : Table :=
  { header := ["job", "age"], rows := [[.str "admin", .num q25p5]] }

lemma headerIndex_isSome_iff (h : List String) (c : String) :
    (headerIndex h c).isSome ↔ c ∈ h := by
  induction h with
  | nil => simp [headerIndex]
  | cons a rest ih =>
      by_cases hac : a = c
      · subst hac; simp [headerIndex]
      · simp [headerIndex, hac, Option.isSome_map, ih, Ne.symm hac]

lemma headerIndex_lt_length {h : List String} {c : String} {i : Nat}
    (hi : headerIndex h c = some i) : i < h.length := by
  induction h generalizing i with
  | nil => simp [headerIndex] at hi
  | cons a rest ih =>
      by_cases hac : a = c
      · simp [headerIndex, hac] at hi
        simp [List.length_cons]
        omega
      · simp [headerIndex, hac] at hi
        obtain ⟨j, hj, rfl⟩ := hi
        have := ih hj
        simp [List.length_cons]
        omega

lemma catFilter_some {t : Table} {c : String} {i : Nat}
    (hi : t.colIndex c = some i) (allowed : List Value) :
    catFilter t c allowed =
      some { header := t.header,
             rows := t.rows.filter (fun r =>
               match r.get? i with
               | some v => allowed.contains v
               | none => false) } := by
  unfold catFilter
  rw [hi]

lemma rangeFilter_some {t : Table} {c : String} {i : Nat}
    (hi : t.colIndex c = some i) (lo hi' : ℚ) :
    rangeFilter t c lo hi' =
      some { header := t.header,
             rows := t.rows.filter (fun r =>
               match r.get? i with
               | some (.num q) => decide (lo ≤ q) && decide (q ≤ hi')
               | _ => false) } := by
  unfold rangeFilter
  rw [hi]

lemma catFilter_header {t t1 : Table} {c : String} {allowed : List Value}
    (h : catFilter t c allowed = some t1) : t1.header = t.header := by
  unfold catFilter at h
  cases hi : t.colIndex c with
  | none => rw [hi] at h; simp at h
  | some i => rw [hi] at h; simp at h; rw [← h]

lemma column_of_empty {t : Table} (h : t.rows = []) (c : String) :
    t.column c = [] := by
  unfold Table.column
  cases t.colIndex c <;> simp [h]

lemma isNumericCol_of_empty {t : Table} (h : t.rows = []) {c : String}
    (hc : c ∈ t.header) : t.isNumericCol c = true := by
  unfold Table.isNumericCol
  rw [column_of_empty h]
  simp [show (t.colIndex c).isSome from (headerIndex_isSome_iff t.header c).mpr hc]

lemma sliderBounds_of_empty {t : Table} (h : t.rows = []) :
    sliderBounds t = none := by
  unfold sliderBounds
  rw [column_of_empty h]
  simp [numsOf, ratMin, ratMax]

/-- C1 counterexample: on the zero-row table that still has an `age` column,
the average-age metric is NaN (pandas mean of an empty series), not N/A. -/
theorem c1_counterexample :
    Table.avgAge { header := ["age"], rows := [] } ≠ AvgMetric.NA := by
  decide

/-- C1 (amended): the metric is N/A exactly when the `age` column is absent;
on a zero-row table with an `age` column it is NaN, not N/A; computing the
metrics never raises (the summarizer is total) and reports row count 0. -/
theorem c1_avgAge_guarded (t : Table) :
    ("age" ∉ t.header → t.avgAge = AvgMetric.NA) ∧
    (t.rows = [] → "age" ∈ t.header → t.avgAge = AvgMetric.nan) ∧
    (t.rows = [] → (summarize t).rowCount = 0) := by
  refine ⟨?_, ?_, ?_⟩
  · intro hna
    have hs : (t.colIndex "age").isSome = false := by
      rw [Bool.eq_false_iff]
      intro h
      exact hna ((headerIndex_isSome_iff t.header "age").mp h)
    simp [Table.avgAge, hs]
  · intro hrows hmem
    have hs : (t.colIndex "age").isSome :=
      (headerIndex_isSome_iff t.header "age").mpr hmem
    simp [Table.avgAge, hs, column_of_empty hrows, numsOf]
  · intro hrows
    simp [summarize, hrows]

/-- C1 witness: the amended statement instantiated on concrete tables. -/
theorem c1_witness :
    Table.avgAge { header := ["age"], rows := [] } = AvgMetric.nan ∧
    Table.avgAge { header := ["job"], rows := [] } = AvgMetric.NA ∧
    (summarize { header := ["age"], rows := [] }).rowCount = 0 :=
  ⟨(c1_avgAge_guarded _).2.1 rfl (by decide),
   (c1_avgAge_guarded _).1 (by decide),
   (c1_avgAge_guarded _).2.2 rfl⟩

/-- C6: a header-only upload loads as a zero-row table with the declared
columns and no parse-error report, and `main` takes the empty-file warning
path; a stream with a row wider than its header yields a parse-error report
and no table. -/
theorem c6_empty_vs_malformed :
    load_data (some "age,job\n") =
      { table := some { header := ["age", "job"], rows := [] },
        errorReported := false } ∧
    mainDispatch (some "age,job\n") = MainOutcome.emptyWarning ∧
    load_data (some "a,b\n1,2,3\n") = { table := none, errorReported := true } := by
  refine ⟨?_, ?_, ?_⟩ <;> decide

/-- C9: whenever the categorical filter empties a table that has an `age`
column, the slider construction hits `int()` of the min of an empty series
and the pipeline errors out instead of producing a zero-row table. -/
theorem c9_pipeline_fails_on_emptied (t : Table) (c : String) (vals : List Value)
    (t1 : Table) (hage : "age" ∈ t.header)
    (hcat : catFilter t c vals = some t1) (hempty : t1.rows = []) :
    pipelineWith t c vals = none := by
  unfold pipelineWith
  rw [hcat]
  have hmem : "age" ∈ t1.header := by rw [catFilter_header hcat]; exact hage
  unfold ageFilterDefault
  simp [isNumericCol_of_empty hempty hmem, sliderBounds_of_empty hempty]

/-- C9 witness: the error branch is reachable on the spec's example table
with an empty categorical selection. -/
theorem c9_witness : pipelineWith T5 "job" [] = none :=
  c9_pipeline_fails_on_emptied T5 "job" []
    { header := ["age", "job"], rows := [] } (by decide) (by decide) rfl

lemma rangeFilter_header {t t1 : Table} {c : String} {lo hi' : ℚ}
    (h : rangeFilter t c lo hi' = some t1) : t1.header = t.header := by
  unfold rangeFilter at h
  cases hi : t.colIndex c with
  | none => rw [hi] at h; simp at h
  | some i => rw [hi] at h; simp at h; rw [← h]

lemma mem_catFilter_rows {t t2 : Table} {c : String} {i : Nat} {allowed : List Value}
    (hic : t.colIndex c = some i) (h : catFilter t c allowed = some t2)
    (r : List Value) :
    r ∈ t2.rows ↔ r ∈ t.rows ∧ ∃ v, r.get? i = some v ∧ v ∈ allowed := by
  rw [catFilter_some hic allowed] at h
  cases h
  simp only [List.mem_filter]
  constructor
  · rintro ⟨hr, hp⟩
    refine ⟨hr, ?_⟩
    cases hv : r.get? i with
    | none => rw [hv] at hp; simp at hp
    | some v =>
        rw [hv] at hp
        exact ⟨v, rfl, List.elem_iff.mp hp⟩
  · rintro ⟨hr, v, hv, hmem⟩
    refine ⟨hr, ?_⟩
    rw [hv]
    exact List.elem_iff.mpr hmem

lemma mem_rangeFilter_rows {t t2 : Table} {c : String} {i : Nat} {lo hi' : ℚ}
    (hic : t.colIndex c = some i) (h : rangeFilter t c lo hi' = some t2)
    (r : List Value) :
    r ∈ t2.rows ↔ r ∈ t.rows ∧ ∃ q, r.get? i = some (Value.num q) ∧ lo ≤ q ∧ q ≤ hi' := by
  rw [rangeFilter_some hic lo hi'] at h
  cases h
  simp only [List.mem_filter]
  constructor
  · rintro ⟨hr, hp⟩
    refine ⟨hr, ?_⟩
    cases hv : r.get? i with
    | none => rw [hv] at hp; simp at hp
    | some v =>
        rw [hv] at hp
        cases v with
        | str s => simp at hp
        | num q =>
            simp only [Bool.and_eq_true, decide_eq_true_eq] at hp
            exact ⟨q, rfl, hp.1, hp.2⟩
  · rintro ⟨hr, q, hv, hlo, hhi⟩
    refine ⟨hr, ?_⟩
    rw [hv]
    simp [hlo, hhi]

lemma catFilter_of_all {t : Table} {c : String} {i : Nat} {allowed : List Value}
    (hic : t.colIndex c = some i)
    (hall : ∀ r ∈ t.rows, ∃ v, r.get? i = some v ∧ v ∈ allowed) :
    catFilter t c allowed = some t := by
  rw [catFilter_some hic allowed]
  have : t.rows.filter (fun r =>
      match r.get? i with
      | some v => allowed.contains v
      | none => false) = t.rows := by
    rw [List.filter_eq_self]
    intro r hr
    obtain ⟨v, hv, hm⟩ := hall r hr
    rw [hv]
    exact List.elem_iff.mpr hm
  rw [this]

lemma rangeFilter_of_all {t : Table} {c : String} {i : Nat} {lo hi' : ℚ}
    (hic : t.colIndex c = some i)
    (hall : ∀ r ∈ t.rows, ∃ q, r.get? i = some (Value.num q) ∧ lo ≤ q ∧ q ≤ hi') :
    rangeFilter t c lo hi' = some t := by
  rw [rangeFilter_some hic lo hi']
  have : t.rows.filter (fun r =>
      match r.get? i with
      | some (.num q) => decide (lo ≤ q) && decide (q ≤ hi')
      | _ => false) = t.rows := by
    rw [List.filter_eq_self]
    intro r hr
    obtain ⟨q, hv, hlo, hhi⟩ := hall r hr
    rw [hv]
    simp [hlo, hhi]
  rw [this]

lemma pyInt_lt_of_den_ne_one {M : ℚ} (hpos : 0 < M) (hden : M.den ≠ 1) :
    ((pyInt M : ℤ) : ℚ) < M := by
  have hn : 0 ≤ M.num := Rat.num_nonneg.mpr hpos.le
  have hd0 : (0 : ℤ) < (M.den : ℤ) := by exact_mod_cast M.den_pos
  have htd : pyInt M = M.num / (M.den : ℤ) := by
    unfold pyInt
    exact Int.tdiv_eq_ediv hn hd0.le
  have hnd : ¬ ((M.den : ℤ) ∣ M.num) := by
    intro hdvd
    have h1 : M.den ∣ M.num.natAbs := Int.natCast_dvd.mp hdvd
    have h2 : M.den ∣ Nat.gcd M.num.natAbs M.den := Nat.dvd_gcd h1 dvd_rfl
    rw [M.reduced] at h2
    exact hden (Nat.dvd_one.mp h2)
  have hlt : M.num / (M.den : ℤ) * (M.den : ℤ) < M.num := by
    refine lt_of_le_of_ne (Int.ediv_mul_le M.num hd0.ne') ?_
    intro heq
    exact hnd ⟨M.num / (M.den : ℤ), by rw [mul_comm]; exact heq.symm⟩
  rw [htd]
  conv_rhs => rw [← Rat.num_div_den M]
  rw [lt_div_iff₀ (by exact_mod_cast M.den_pos : (0 : ℚ) < (M.den : ℚ))]
  exact_mod_cast hlt

/-- C10: the slider's selectable bounds are the `int()` truncations of the
min and max of the `age` column of the current (categorically filtered)
frame; for a positive non-integer maximum the upper bound is strictly below
the maximum itself; and any row whose age exceeds the truncated upper bound
is excluded even by the widest (default) range filter. -/
theorem c10_slider_truncation (t : Table) (i : Nat) (m M : ℚ)
    (hi : t.colIndex "age" = some i)
    (hm : ratMin (numsOf (t.column "age")) = some m)
    (hM : ratMax (numsOf (t.column "age")) = some M) :
    sliderBounds t = some (pyInt m, pyInt M) ∧
    (0 < M → M.den ≠ 1 → ((pyInt M : ℤ) : ℚ) < M) ∧
    (∀ t2, rangeFilter t "age" ((pyInt m : ℤ) : ℚ) ((pyInt M : ℤ) : ℚ) = some t2 →
      ∀ r ∈ t.rows, ∀ v : ℚ, r.get? i = some (Value.num v) →
        ((pyInt M : ℤ) : ℚ) < v → r ∉ t2.rows) := by
  refine ⟨?_, fun hpos hden => pyInt_lt_of_den_ne_one hpos hden, ?_⟩
  · unfold sliderBounds
    rw [hm, hM]
  · intro t2 ht2 r hr v hv hlt hmem
    obtain ⟨-, q, hq, -, hqle⟩ := (mem_rangeFilter_rows hi ht2 r).mp hmem
    rw [hv] at hq
    cases hq
    exact absurd hqle (not_le.mpr hlt)

/-- C10 witness: on the one-row table with age 25.5 the slider bounds
truncate to [25, 25] and the default-range filter excludes the only row. -/
theorem c10_witness :
    sliderBounds Tq = some (25, 25) ∧
    rangeFilter Tq "age" ((25 : ℤ) : ℚ) ((25 : ℤ) : ℚ) =
      some { header := ["job", "age"], rows := [] } ∧
    [Value.str "admin", Value.num q25p5] ∉
      Table.rows { header := ["job", "age"], rows := ([] : List (List Value)) } :=
  ⟨((c10_slider_truncation Tq 1 q25p5 q25p5 rfl rfl rfl).1).trans (by decide),
   by decide,
   (c10_slider_truncation Tq 1 q25p5 q25p5 rfl rfl rfl).2.2
     { header := ["job", "age"], rows := [] } (by decide)
     [Value.str "admin", Value.num q25p5] (by decide) q25p5 rfl (by decide)⟩

/-- C4: the categorical filter keeps exactly the rows whose cell in the named
column belongs to the allowed set (membership, order preserved as a sublist),
and an empty allowed set yields zero rows without an error. -/
theorem c4_catFilter_exact (t : Table) (c : String) (allowed : List Value)
    (i : Nat) (hi : t.colIndex c = some i) :
    ∃ t2, catFilter t c allowed = some t2 ∧ t2.header = t.header ∧
      (∀ r, r ∈ t2.rows ↔ r ∈ t.rows ∧ ∃ v, r.get? i = some v ∧ v ∈ allowed) ∧
      t2.rows.Sublist t.rows ∧
      (allowed = [] → t2.rows = []) := by
  refine ⟨_, catFilter_some hi allowed, rfl,
    mem_catFilter_rows hi (catFilter_some hi allowed), List.filter_sublist _, ?_⟩
  intro h
  subst h
  rw [List.filter_eq_nil_iff]
  intro r hr
  cases hv : r.get? i <;> simp [hv]

/-- C4 witness: the characterisation instantiated on the example table,
filtering `job` to the admin rows. -/
theorem c4_witness :
    ∃ t2, catFilter T5 "job" [Value.str "admin"] = some t2 ∧
      t2.header = T5.header ∧
      (∀ r, r ∈ t2.rows ↔ r ∈ T5.rows ∧
        ∃ v, r.get? 1 = some v ∧ v ∈ [Value.str "admin"]) ∧
      t2.rows.Sublist T5.rows ∧
      ([Value.str "admin"] = ([] : List Value) → t2.rows = []) :=
  c4_catFilter_exact T5 "job" [Value.str "admin"] 1 (by decide)

/-- C5: the range filter keeps exactly the rows whose numeric cell lies in
the inclusive interval; a categorical filter followed by a range filter keeps
exactly the rows satisfying both; and on the example table the admin filter
keeps 2 rows, the 30-60 age filter keeps 2 rows, and their conjunction keeps
exactly the age-40 row. -/
theorem c5_range_and_conjunction :
    (∀ (t : Table) (c : String) (lo hi : ℚ) (i : Nat),
        t.colIndex c = some i → lo ≤ hi →
        ∃ t2, rangeFilter t c lo hi = some t2 ∧ t2.header = t.header ∧
          (∀ r, r ∈ t2.rows ↔ r ∈ t.rows ∧
            ∃ q, r.get? i = some (Value.num q) ∧ lo ≤ q ∧ q ≤ hi)) ∧
    (∀ (t : Table) (c : String) (allowed : List Value) (lo hi : ℚ) (i j : Nat),
        t.colIndex c = some i → t.colIndex "age" = some j →
        ∃ t2, applySpec t { cat := some (c, allowed), range := some ("age", lo, hi) } =
            some t2 ∧
          (∀ r, r ∈ t2.rows ↔ r ∈ t.rows ∧
            (∃ v, r.get? i = some v ∧ v ∈ allowed) ∧
            (∃ q, r.get? j = some (Value.num q) ∧ lo ≤ q ∧ q ≤ hi))) ∧
    catFilter T5 "job" [Value.str "admin"] =
      some { header := T5.header,
             rows := [[.num 25, .str "admin"], [.num 40, .str "admin"]] } ∧
    rangeFilter T5 "age" 30 60 =
      some { header := T5.header,
             rows := [[.num 40, .str "admin"], [.num 60, .str "blue-collar"]] } ∧
    applySpec T5 { cat := some ("job", [Value.str "admin"]),
                   range := some ("age", 30, 60) } =
      some { header := T5.header, rows := [[.num 40, .str "admin"]] } := by
  refine ⟨?_, ?_, by decide, by decide, by decide⟩
  · intro t c lo hi i hic _
    exact ⟨_, rangeFilter_some hic lo hi, rfl,
      mem_rangeFilter_rows hic (rangeFilter_some hic lo hi)⟩
  · intro t c allowed lo hi i j hic hjc
    obtain ⟨t1, ht1⟩ : ∃ t1, catFilter t c allowed = some t1 :=
      ⟨_, catFilter_some hic allowed⟩
    have hj1 : t1.colIndex c = some i ∧ t1.colIndex "age" = some j := by
      unfold Table.colIndex
      rw [catFilter_header ht1]
      exact ⟨hic, hjc⟩
    obtain ⟨t2, ht2⟩ : ∃ t2, rangeFilter t1 "age" lo hi = some t2 :=
      ⟨_, rangeFilter_some hj1.2 lo hi⟩
    refine ⟨t2, ?_, ?_⟩
    · change (match catFilter t c allowed with
            | none => none
            | some u => applyRange u (some ("age", lo, hi))) = some t2
      rw [ht1]
      exact ht2
    · intro r
      rw [mem_rangeFilter_rows hj1.2 ht2 r, mem_catFilter_rows hic ht1 r]
      tauto

/-- C5 witness: both general characterisations instantiated on the example
table. -/
theorem c5_witness :
    (∃ t2, rangeFilter T5 "age" 30 60 = some t2 ∧ t2.header = T5.header ∧
      (∀ r, r ∈ t2.rows ↔ r ∈ T5.rows ∧
        ∃ q, r.get? 0 = some (Value.num q) ∧ 30 ≤ q ∧ q ≤ 60)) ∧
    (∃ t2, applySpec T5 { cat := some ("job", [Value.str "admin"]),
                          range := some ("age", 30, 60) } = some t2 ∧
      (∀ r, r ∈ t2.rows ↔ r ∈ T5.rows ∧
        (∃ v, r.get? 1 = some v ∧ v ∈ [Value.str "admin"]) ∧
        (∃ q, r.get? 0 = some (Value.num q) ∧ 30 ≤ q ∧ q ≤ 60))) :=
  ⟨c5_range_and_conjunction.1 T5 "age" 30 60 0 (by decide) (by norm_num),
   c5_range_and_conjunction.2.1 T5 "job" [Value.str "admin"] 30 60 1 0
     (by decide) (by decide)⟩

lemma applyCat_header {t ta : Table} {o : Option (String × List Value)}
    (h : applyCat t o = some ta) : ta.header = t.header := by
  cases o with
  | none => cases h; rfl
  | some p => exact catFilter_header h

lemma applyRange_header {t ta : Table} {o : Option (String × ℚ × ℚ)}
    (h : applyRange t o = some ta) : ta.header = t.header := by
  cases o with
  | none => cases h; rfl
  | some p => exact rangeFilter_header h

lemma applyRange_sub {t ta : Table} {o : Option (String × ℚ × ℚ)}
    (h : applyRange t o = some ta) : ∀ r ∈ ta.rows, r ∈ t.rows := by
  cases o with
  | none => cases h; exact fun r hr => hr
  | some p =>
      obtain ⟨c, lo, hi⟩ := p
      simp only [applyRange] at h
      cases hic : t.colIndex c with
      | none => unfold rangeFilter at h; rw [hic] at h; cases h
      | some i =>
          intro r hr
          exact ((mem_rangeFilter_rows hic h r).mp hr).1

lemma applyCat_again {t ta tb : Table} {o : Option (String × List Value)}
    (h : applyCat t o = some ta) (hsub : ∀ r ∈ tb.rows, r ∈ ta.rows)
    (hdr : tb.header = t.header) : applyCat tb o = some tb := by
  cases o with
  | none => rfl
  | some p =>
      obtain ⟨c, allowed⟩ := p
      simp only [applyCat] at h ⊢
      cases hic : t.colIndex c with
      | none => unfold catFilter at h; rw [hic] at h; cases h
      | some i =>
          have hib : tb.colIndex c = some i := by
            unfold Table.colIndex
            rw [hdr]
            exact hic
          apply catFilter_of_all hib
          intro r hr
          exact ((mem_catFilter_rows hic h r).mp (hsub r hr)).2

lemma applyRange_again {t ta tb : Table} {o : Option (String × ℚ × ℚ)}
    (h : applyRange t o = some ta) (hsub : ∀ r ∈ tb.rows, r ∈ ta.rows)
    (hdr : tb.header = t.header) : applyRange tb o = some tb := by
  cases o with
  | none => rfl
  | some p =>
      obtain ⟨c, lo, hi⟩ := p
      simp only [applyRange] at h ⊢
      cases hic : t.colIndex c with
      | none => unfold rangeFilter at h; rw [hic] at h; cases h
      | some i =>
          have hib : tb.colIndex c = some i := by
            unfold Table.colIndex
            rw [hdr]
            exact hic
          apply rangeFilter_of_all hib
          intro r hr
          exact ((mem_rangeFilter_rows hic h r).mp (hsub r hr)).2

/-- C3: for a fixed filter specification, the engine is idempotent: filtering
an already-filtered table changes neither the rows nor their order. -/
theorem c3_applySpec_idempotent (t t1 : Table) (S : FilterSpec)
    (h : applySpec t S = some t1) : applySpec t1 S = some t1 := by
  unfold applySpec at h ⊢
  cases hcf : applyCat t S.cat with
  | none => rw [hcf] at h; cases h
  | some ta =>
      rw [hcf] at h
      change applyRange ta S.range = some t1 at h
      have hcat1 : applyCat t1 S.cat = some t1 :=
        applyCat_again hcf (applyRange_sub h)
          ((applyRange_header h).trans (applyCat_header hcf))
      rw [hcat1]
      exact applyRange_again h (fun r hr => hr) (applyRange_header h)

lemma row_get {t : Table} {r : List Value} {c : String} {i : Nat}
    (hwf : t.WF) (hr : r ∈ t.rows) (hic : t.colIndex c = some i) :
    ∃ v, r.get? i = some v := by
  cases hq : r.get? i with
  | some v => exact ⟨v, rfl⟩
  | none =>
      rw [List.get?_eq_none] at hq
      have hlen : r.length = t.header.length := hwf r hr
      have := headerIndex_lt_length hic
      omega

lemma mem_column_of {t : Table} {c : String} {i : Nat} {v : Value} {r : List Value}
    (hic : t.colIndex c = some i) (hr : r ∈ t.rows) (hv : r.get? i = some v) :
    v ∈ t.column c := by
  unfold Table.column
  rw [hic]
  exact List.mem_filterMap.mpr ⟨r, hr, hv⟩

lemma catFilter_uniques {t : Table} {c : String} {i : Nat}
    (hwf : t.WF) (hic : t.colIndex c = some i) :
    catFilter t c (t.uniqueVals c) = some t := by
  apply catFilter_of_all hic
  intro r hr
  obtain ⟨v, hv⟩ := row_get hwf hr hic
  refine ⟨v, hv, ?_⟩
  unfold Table.uniqueVals
  rw [List.mem_dedup]
  exact mem_column_of hic hr hv

lemma foldl_min_le (l : List ℚ) (a : ℚ) :
    l.foldl min a ≤ a ∧ ∀ q ∈ l, l.foldl min a ≤ q := by
  induction l generalizing a with
  | nil => simp
  | cons b rest ih =>
      simp only [List.foldl_cons]
      refine ⟨le_trans (ih (min a b)).1 (min_le_left a b), ?_⟩
      intro q hq
      rcases List.mem_cons.mp hq with rfl | hq2
      · exact le_trans (ih (min a q)).1 (min_le_right a q)
      · exact (ih (min a b)).2 q hq2

lemma foldl_min_mem (l : List ℚ) (a : ℚ) :
    l.foldl min a = a ∨ l.foldl min a ∈ l := by
  induction l generalizing a with
  | nil => simp
  | cons b rest ih =>
      simp only [List.foldl_cons]
      rcases ih (min a b) with h | h
      · rcases min_choice a b with h2 | h2
        · left; rw [h, h2]
        · right; rw [h, h2]; exact List.mem_cons_self b rest
      · right; exact List.mem_cons_of_mem b h

lemma foldl_max_ge (l : List ℚ) (a : ℚ) :
    a ≤ l.foldl max a ∧ ∀ q ∈ l, q ≤ l.foldl max a := by
  induction l generalizing a with
  | nil => simp
  | cons b rest ih =>
      simp only [List.foldl_cons]
      refine ⟨le_trans (le_max_left a b) (ih (max a b)).1, ?_⟩
      intro q hq
      rcases List.mem_cons.mp hq with rfl | hq2
      · exact le_trans (le_max_right a q) (ih (max a q)).1
      · exact (ih (max a b)).2 q hq2

lemma foldl_max_mem (l : List ℚ) (a : ℚ) :
    l.foldl max a = a ∨ l.foldl max a ∈ l := by
  induction l generalizing a with
  | nil => simp
  | cons b rest ih =>
      simp only [List.foldl_cons]
      rcases ih (max a b) with h | h
      · rcases max_choice a b with h2 | h2
        · left; rw [h, h2]
        · right; rw [h, h2]; exact List.mem_cons_self b rest
      · right; exact List.mem_cons_of_mem b h

lemma ratMin_spec {l : List ℚ} {m : ℚ} (h : ratMin l = some m) :
    m ∈ l ∧ ∀ q ∈ l, m ≤ q := by
  cases l with
  | nil => simp [ratMin] at h
  | cons a rest =>
      simp only [ratMin] at h
      cases h
      constructor
      · rcases foldl_min_mem rest a with h2 | h2
        · rw [h2]; exact List.mem_cons_self a rest
        · exact List.mem_cons_of_mem a h2
      · intro q hq
        rcases List.mem_cons.mp hq with rfl | hq2
        · exact (foldl_min_le rest q).1
        · exact (foldl_min_le rest a).2 q hq2

lemma ratMax_spec {l : List ℚ} {M : ℚ} (h : ratMax l = some M) :
    M ∈ l ∧ ∀ q ∈ l, q ≤ M := by
  cases l with
  | nil => simp [ratMax] at h
  | cons a rest =>
      simp only [ratMax] at h
      cases h
      constructor
      · rcases foldl_max_mem rest a with h2 | h2
        · rw [h2]; exact List.mem_cons_self a rest
        · exact List.mem_cons_of_mem a h2
      · intro q hq
        rcases List.mem_cons.mp hq with rfl | hq2
        · exact (foldl_max_ge rest q).1
        · exact (foldl_max_ge rest a).2 q hq2

lemma pyInt_den_one {q : ℚ} (h : q.den = 1) : ((pyInt q : ℤ) : ℚ) = q := by
  unfold pyInt
  rw [h]
  simp only [Nat.cast_one, Int.tdiv_one]
  exact (Rat.den_eq_one_iff q).mp h

lemma ageFilterDefault_id {t : Table} (hwf : t.WF) (hne : t.rows ≠ [])
    (hint : ∀ q ∈ numsOf (t.column "age"), q.den = 1) :
    ageFilterDefault t = some t := by
  unfold ageFilterDefault
  cases hnc : t.isNumericCol "age" with
  | false => simp
  | true =>
      have hnc2 := hnc
      unfold Table.isNumericCol at hnc2
      rw [Bool.and_eq_true] at hnc2
      obtain ⟨i, hic⟩ := Option.isSome_iff_exists.mp hnc2.1
      have hallnum : ∀ v ∈ t.column "age", v.isNum := List.all_eq_true.mp hnc2.2
      obtain ⟨r0, hr0⟩ := List.exists_mem_of_ne_nil t.rows hne
      obtain ⟨v0, hv0⟩ := row_get hwf hr0 hic
      have hv0c : v0 ∈ t.column "age" := mem_column_of hic hr0 hv0
      obtain ⟨q0, rfl⟩ : ∃ q0, v0 = Value.num q0 := by
        cases v0 with
        | num q => exact ⟨q, rfl⟩
        | str s => have := hallnum _ hv0c; simp [Value.isNum] at this
      have hq0 : q0 ∈ numsOf (t.column "age") :=
        List.mem_filterMap.mpr ⟨Value.num q0, hv0c, rfl⟩
      cases hqs : numsOf (t.column "age") with
      | nil => rw [hqs] at hq0; cases hq0
      | cons a rest =>
          have hmin : ratMin (numsOf (t.column "age")) = some (rest.foldl min a) := by
            rw [hqs]; rfl
          have hmax : ratMax (numsOf (t.column "age")) = some (rest.foldl max a) := by
            rw [hqs]; rfl
          have hsb : sliderBounds t =
              some (pyInt (rest.foldl min a), pyInt (rest.foldl max a)) := by
            unfold sliderBounds
            rw [hmin, hmax]
          rw [hsb]
          have hmspec := ratMin_spec hmin
          have hMspec := ratMax_spec hmax
          show rangeFilter t "age" ((pyInt (rest.foldl min a) : ℤ) : ℚ)
              ((pyInt (rest.foldl max a) : ℤ) : ℚ) = some t
          rw [pyInt_den_one (hint _ hmspec.1), pyInt_den_one (hint _ hMspec.1)]
          apply rangeFilter_of_all hic
          intro r hr
          obtain ⟨v, hv⟩ := row_get hwf hr hic
          have hvc : v ∈ t.column "age" := mem_column_of hic hr hv
          obtain ⟨q, rfl⟩ : ∃ q, v = Value.num q := by
            cases v with
            | num q => exact ⟨q, rfl⟩
            | str s => have := hallnum _ hvc; simp [Value.isNum] at this
          have hqmem : q ∈ numsOf (t.column "age") :=
            List.mem_filterMap.mpr ⟨Value.num q, hvc, rfl⟩
          exact ⟨q, hv, hmspec.2 q hqmem, hMspec.2 q hqmem⟩

/-- C2 counterexample: with a non-integer age, the pipeline with every
control at its default drops the age-25.5 row (the widest slider range is
the truncated [25, 25]), so the table is not returned unchanged. -/
theorem c2_counterexample :
    defaultPipeline Tq = some { header := ["job", "age"], rows := [] } ∧
    defaultPipeline Tq ≠ some Tq := by
  constructor <;> decide

/-- C2 (amended): for every well-formed table with at least one row whose
`age` cells (if any are numeric) are all integers, the pipeline with no
active constraints — all distinct values of the chosen categorical column
selected and the age slider at its default widest range — returns the table
unchanged, same rows in the same order. Tables with non-integer age values
are not covered: the truncated slider bounds can exclude rows. -/
theorem c2_default_pipeline_id (t : Table) (hwf : t.WF) (hne : t.rows ≠ [])
    (hint : ∀ q ∈ numsOf (t.column "age"), q.den = 1) :
    defaultPipeline t = some t := by
  unfold defaultPipeline
  cases hfc : t.firstCatCol with
  | none => exact ageFilterDefault_id hwf hne hint
  | some c =>
      unfold Table.firstCatCol at hfc
      have hstr := List.find?_some hfc
      have hsome : (t.colIndex c).isSome = true := by
        unfold Table.isStrCol at hstr
        rw [Bool.and_eq_true] at hstr
        exact hstr.1
      obtain ⟨i, hic⟩ := Option.isSome_iff_exists.mp hsome
      change pipelineWith t c (t.uniqueVals c) = some t
      unfold pipelineWith
      rw [catFilter_uniques hwf hic]
      change ageFilterDefault t = some t
      exact ageFilterDefault_id hwf hne hint

/-- C2 witness: the amended identity instantiated on the example table,
whose ages are all integers. -/
theorem c2_witness : defaultPipeline T5 = some T5 :=
  c2_default_pipeline_id T5 (by decide) (by decide) (by decide)

/-- C3 witness: re-applying the admin-and-30-60 spec to its own output is a
fixed point on the example table. -/
theorem c3_witness :
    applySpec { header := ["age", "job"], rows := [[.num 40, .str "admin"]] }
      { cat := some ("job", [Value.str "admin"]), range := some ("age", 30, 60) } =
    some { header := ["age", "job"], rows := [[.num 40, .str "admin"]] } :=
  c3_applySpec_idempotent T5
    { header := ["age", "job"], rows := [[.num 40, .str "admin"]] }
    { cat := some ("job", [Value.str "admin"]), range := some ("age", 30, 60) }
    (by decide)

lemma data_eq_nil {s : String} (h : s.data = []) : s = "" := by
  cases s
  cases h
  rfl

lemma map_mk_data (cells : List String) :
    (cells.map String.data).map String.mk = cells := by
  induction cells with
  | nil => rfl
  | cons c rest ih =>
      rw [List.map_cons, List.map_cons, ih]

lemma splitOnChar_ne_nil (sep : Char) (cs : List Char) :
    splitOnChar sep cs ≠ [] := by
  cases cs with
  | nil => simp [splitOnChar]
  | cons ch rest =>
      simp only [splitOnChar]
      cases splitOnChar sep rest with
      | nil => simp
      | cons f fs => by_cases hcs : ch = sep <;> simp [hcs]

lemma splitOnChar_of_not_mem {sep : Char} {cs : List Char} (h : sep ∉ cs) :
    splitOnChar sep cs = [cs] := by
  induction cs with
  | nil => rfl
  | cons ch rest ih =>
      have hne : ch ≠ sep := by rintro rfl; exact h (List.mem_cons_self _ _)
      have hrest : sep ∉ rest := fun hm => h (List.mem_cons_of_mem _ hm)
      simp only [splitOnChar, ih hrest]
      simp [hne]

lemma splitOnChar_append {sep : Char} {pre : List Char} (h : sep ∉ pre)
    (tail : List Char) :
    splitOnChar sep (pre ++ sep :: tail) = pre :: splitOnChar sep tail := by
  induction pre with
  | nil =>
      simp only [List.nil_append, splitOnChar]
      cases hsp : splitOnChar sep tail with
      | nil => exact absurd hsp (splitOnChar_ne_nil sep tail)
      | cons f fs => simp
  | cons ch pre ih =>
      have hne : ch ≠ sep := by rintro rfl; exact h (List.mem_cons_self _ _)
      have hpre : sep ∉ pre := fun hm => h (List.mem_cons_of_mem _ hm)
      simp only [List.cons_append, splitOnChar, List.append_eq]
      rw [ih hpre]
      simp [hne]

lemma splitOnChar_unlines (ls : List String) (hnl : ∀ l ∈ ls, '\n' ∉ l.data)
    (hne : ls ≠ []) :
    splitOnChar '\n' (unlines ls).data = ls.map String.data ++ [[]] := by
  induction ls with
  | nil => exact absurd rfl hne
  | cons l rest ih =>
      have hl : '\n' ∉ l.data := hnl l (List.mem_cons_self _ _)
      cases rest with
      | nil =>
          have hdata : (unlines [l]).data = l.data ++ '\n' :: [] := by
            show (l ++ "\n" ++ unlines []).data = _
            simp [unlines, String.data_append]
          rw [hdata, splitOnChar_append hl]
          rfl
      | cons l2 rest2 =>
          have hdata : (unlines (l :: l2 :: rest2)).data
              = l.data ++ '\n' :: (unlines (l2 :: rest2)).data := by
            show (l ++ "\n" ++ unlines (l2 :: rest2)).data = _
            simp [String.data_append]
          rw [hdata, splitOnChar_append hl,
            ih (fun x hx => hnl x (List.mem_cons_of_mem _ hx)) (by simp)]
          rfl

lemma filter_nonempty_lines (ls : List (List Char)) (h : ∀ l ∈ ls, l ≠ []) :
    (ls ++ [[]]).filter (fun l => !l.isEmpty) = ls := by
  rw [List.filter_append]
  have h1 : List.filter (fun l => !l.isEmpty) [([] : List Char)] = [] := rfl
  rw [h1, List.append_nil]
  rw [List.filter_eq_self]
  intro a ha
  cases hcs : a with
  | nil => exact absurd hcs (h a ha)
  | cons x xs => rfl

lemma parseFieldsList_cons_of_plain {ch : Char} (h1 : ch ≠ '\"') (h2 : ch ≠ ',')
    (rest : List Char) :
    parseFieldsList (ch :: rest) = consHead ch (parseFieldsList rest) := by
  simp [parseFieldsList, h1, h2]

lemma parseFieldsList_plain {cs : List Char}
    (h : ∀ ch ∈ cs, ch ≠ '\"' ∧ ch ≠ ',') :
    parseFieldsList cs = [cs] := by
  induction cs with
  | nil => rfl
  | cons ch rest ih =>
      have hch := h ch (List.mem_cons_self _ _)
      rw [parseFieldsList_cons_of_plain hch.1 hch.2,
        ih (fun c hc => h c (List.mem_cons_of_mem _ hc))]
      rfl

lemma parseFieldsList_append {f : List Char}
    (h : ∀ ch ∈ f, ch ≠ '\"' ∧ ch ≠ ',') (tail : List Char) :
    parseFieldsList (f ++ ',' :: tail) = f :: parseFieldsList tail := by
  induction f with
  | nil => rfl
  | cons ch f ih =>
      have hch := h ch (List.mem_cons_self _ _)
      rw [List.cons_append, parseFieldsList_cons_of_plain hch.1 hch.2,
        ih (fun c hc => h c (List.mem_cons_of_mem _ hc))]
      rfl

lemma plainCell_chars {s : String} (h : plainCell s) :
    ∀ ch ∈ s.data, ch ≠ '\"' ∧ ch ≠ ',' :=
  fun ch hch => ⟨(h.2 ch hch).2.1, (h.2 ch hch).1⟩

lemma parseFieldsList_joinComma {fields : List String}
    (h : ∀ f ∈ fields, plainCell f) (hne : fields ≠ []) :
    parseFieldsList (joinComma fields).data = fields.map String.data := by
  induction fields with
  | nil => exact absurd rfl hne
  | cons f rest ih =>
      cases rest with
      | nil =>
          show parseFieldsList f.data = [f.data]
          exact parseFieldsList_plain (plainCell_chars (h f (List.mem_cons_self _ _)))
      | cons f2 rest2 =>
          have hdata : (joinComma (f :: f2 :: rest2)).data
              = f.data ++ ',' :: (joinComma (f2 :: rest2)).data := by
            show (f ++ "," ++ joinComma (f2 :: rest2)).data = _
            simp [String.data_append]
          rw [hdata,
            parseFieldsList_append (plainCell_chars (h f (List.mem_cons_self _ _))) _,
            ih (fun x hx => h x (List.mem_cons_of_mem _ hx)) (by simp)]
          rfl

lemma joinComma_no_newline {fields : List String}
    (h : ∀ f ∈ fields, plainCell f) : '\n' ∉ (joinComma fields).data := by
  induction fields with
  | nil => simp [joinComma]
  | cons f rest ih =>
      have h1 : '\n' ∉ f.data := fun hm =>
        ((h f (List.mem_cons_self _ _)).2 '\n' hm).2.2.1 rfl
      cases rest with
      | nil => exact h1
      | cons f2 rest2 =>
          have h2 : '\n' ∉ (joinComma (f2 :: rest2)).data :=
            ih (fun x hx => h x (List.mem_cons_of_mem _ hx))
          have hdata : (joinComma (f :: f2 :: rest2)).data
              = f.data ++ ',' :: (joinComma (f2 :: rest2)).data := by
            show (f ++ "," ++ joinComma (f2 :: rest2)).data = _
            simp [String.data_append]
          rw [hdata]
          intro hmem
          rcases List.mem_append.mp hmem with hm | hm
          · exact h1 hm
          · rcases List.mem_cons.mp hm with heq | hm2
            · exact absurd heq (by decide)
            · exact h2 hm2

lemma joinComma_ne_nil {fields : List String} (hne : fields ≠ [])
    (h : ∀ f ∈ fields, plainCell f) : (joinComma fields).data ≠ [] := by
  cases fields with
  | nil => exact absurd rfl hne
  | cons f rest =>
      cases rest with
      | nil =>
          intro hd
          exact (h f (List.mem_cons_self _ _)).1 (data_eq_nil hd)
      | cons f2 rest2 =>
          have hdata : (joinComma (f :: f2 :: rest2)).data
              = f.data ++ ',' :: (joinComma (f2 :: rest2)).data := by
            show (f ++ "," ++ joinComma (f2 :: rest2)).data = _
            simp [String.data_append]
          rw [hdata]
          simp

lemma renderField_plain {s : String} (h : plainCell s) : renderField s = s := by
  have hq : needsQuote s = false := by
    unfold needsQuote
    rw [List.any_eq_false]
    intro ch hch
    obtain ⟨h1, h2, h3, h4⟩ := h.2 ch hch
    simp [h1, h2, h3, h4]
  unfold renderField
  rw [hq]
  rfl

lemma map_renderField_plain {cells : List String} (h : ∀ s ∈ cells, plainCell s) :
    cells.map renderField = cells := by
  induction cells with
  | nil => rfl
  | cons c rest ih =>
      rw [List.map_cons, renderField_plain (h c (List.mem_cons_self _ _)),
        ih (fun s hs => h s (List.mem_cons_of_mem _ hs))]

lemma csvLine_plain {cells : List String} (h : ∀ s ∈ cells, plainCell s) :
    csvLine cells = joinComma cells := by
  unfold csvLine
  rw [map_renderField_plain h]

lemma parse_csvLine {cells : List String} (h : ∀ s ∈ cells, plainCell s)
    (hne : cells ≠ []) :
    (parseFieldsList (csvLine cells).data).map String.mk = cells := by
  rw [csvLine_plain h, parseFieldsList_joinComma h hne, map_mk_data]

lemma loadLines_cons (hl : List Char) (dls : List (List Char)) :
    loadLines (hl :: dls) =
      if (dls.map (fun l => (parseFieldsList l).map (fun cs => String.mk cs))).all
          (fun r => r.length == ((parseFieldsList hl).map (fun cs => String.mk cs)).length)
      then
        some (mkTable ((parseFieldsList hl).map (fun cs => String.mk cs))
          (dls.map (fun l => (parseFieldsList l).map (fun cs => String.mk cs))))
      else none := rfl

/-- C7: the export encoder's byte sequence is the header line followed by one
line per record in the table's current (filtered) order, and the download is
offered as `filtered_bank_data.csv` with MIME type `text/csv`. -/
theorem c7_export_encoding (t : Table)
    (hplain : ∀ l ∈ (csvLine t.header :: t.rows.map (fun r => csvLine (r.map renderValue))),
      '\n' ∉ l.data) :
    (downloadButton t).fileName = "filtered_bank_data.csv" ∧
    (downloadButton t).mime = "text/csv" ∧
    (downloadButton t).data = t.toCsv ∧
    splitOnChar '\n' (t.toCsv).data =
      (csvLine t.header :: t.rows.map (fun r => csvLine (r.map renderValue))).map
        String.data ++ [[]] := by
  refine ⟨rfl, rfl, rfl, ?_⟩
  unfold Table.toCsv
  exact splitOnChar_unlines _ hplain (by simp)

/-- C7 witness: the line decomposition and download metadata on the example
table. -/
theorem c7_witness :
    (downloadButton T5).fileName = "filtered_bank_data.csv" ∧
    (downloadButton T5).mime = "text/csv" ∧
    (downloadButton T5).data = T5.toCsv ∧
    splitOnChar '\n' (T5.toCsv).data =
      (csvLine T5.header :: T5.rows.map (fun r => csvLine (r.map renderValue))).map
        String.data ++ [[]] :=
  c7_export_encoding T5 (by decide)

/-- C8: encoding a table whose rendered cells are plain (nonempty, free of
delimiter/quote/line-break characters) and re-parsing the bytes with the
loader yields exactly the canonical re-inference of the table: the same
header and the same grid of rendered values with column types re-inferred. -/
theorem c8_roundtrip (t : Table) (hwf : t.WF) (hne : t.header ≠ [])
    (hhdr : ∀ s ∈ t.header, plainCell s)
    (hcells : ∀ r ∈ t.rows, ∀ v ∈ r, plainCell (renderValue v)) :
    loadCSV t.toCsv = some (canonTable t) := by
  have hrowplain : ∀ r ∈ t.rows, ∀ s ∈ r.map renderValue, plainCell s := by
    intro r hr s hs
    obtain ⟨v, hv, rfl⟩ := List.mem_map.mp hs
    exact hcells r hr v hv
  have hrowne : ∀ r ∈ t.rows, r.map renderValue ≠ [] := by
    intro r hr hnil
    have hr0 : r = [] := List.map_eq_nil_iff.mp hnil
    have hlen := hwf r hr
    rw [hr0] at hlen
    simp at hlen
    exact hne (List.length_eq_zero.mp hlen.symm)
  have hnl : ∀ l ∈ (csvLine t.header :: t.rows.map (fun r => csvLine (r.map renderValue))),
      '\n' ∉ l.data := by
    intro l hl
    rcases List.mem_cons.mp hl with rfl | hl2
    · rw [csvLine_plain hhdr]
      exact joinComma_no_newline hhdr
    · obtain ⟨r, hr, rfl⟩ := List.mem_map.mp hl2
      rw [csvLine_plain (hrowplain r hr)]
      exact joinComma_no_newline (hrowplain r hr)
  have hlne : ∀ ld ∈ (csvLine t.header ::
      t.rows.map (fun r => csvLine (r.map renderValue))).map String.data, ld ≠ [] := by
    intro ld hld
    obtain ⟨l, hl, rfl⟩ := List.mem_map.mp hld
    rcases List.mem_cons.mp hl with rfl | hl2
    · rw [csvLine_plain hhdr]
      exact joinComma_ne_nil hne hhdr
    · obtain ⟨r, hr, rfl⟩ := List.mem_map.mp hl2
      rw [csvLine_plain (hrowplain r hr)]
      exact joinComma_ne_nil (hrowne r hr) (hrowplain r hr)
  unfold loadCSV Table.toCsv
  rw [splitOnChar_unlines _ hnl (by simp), filter_nonempty_lines _ hlne,
    List.map_cons, loadLines_cons, parse_csvLine hhdr hne]
  have hgrid : ((t.rows.map fun r => csvLine (r.map renderValue)).map String.data).map
      (fun l => (parseFieldsList l).map (fun cs => String.mk cs)) =
      t.rows.map (fun r => r.map renderValue) := by
    rw [List.map_map, List.map_map]
    apply List.map_congr_left
    intro r hr
    show (parseFieldsList (csvLine (r.map renderValue)).data).map String.mk
      = r.map renderValue
    exact parse_csvLine (hrowplain r hr) (hrowne r hr)
  rw [hgrid]
  have hcond : (t.rows.map (fun r => r.map renderValue)).all
      (fun r => r.length == t.header.length) = true := by
    rw [List.all_eq_true]
    intro x hx
    obtain ⟨r, hr, rfl⟩ := List.mem_map.mp hx
    simp [List.length_map, hwf r hr]
  rw [hcond]
  rfl

/-- C8 witness: the round trip computed on the example table, where the
canonical re-inference reproduces the table exactly. -/
theorem c8_witness :
    loadCSV T5.toCsv = some (canonTable T5) ∧ canonTable T5 = T5 :=
  ⟨c8_roundtrip T5 (by decide) (by decide) (by decide) (by decide), by decide⟩
